import Mathlib

/-!
Verification of the schema-inference + text-normalization + fuzzy-matching
pipeline of arfigyelo-search-mcp (src/arfigyelo_search_mcp/search.py and the
result compaction of server.py), against its natural-language specification.

The embedding mirrors search.py definition by definition.  Calls into
external libraries are handled as follows:

* unicodedata.normalize("NFD", _), unicodedata.category, str.lower and
  str.strip are Unicode-data-driven; they are embedded parametrically via a
  UnicodeModel record, and theorems that depend on facts of the Unicode
  character database take those facts as explicit hypotheses on the model.
* rapidfuzz's fuzz.token_set_ratio and process.extract are not part of the
  repository; they are modelled from the specification (sections 4.4, 4.5),
  see the doc comments on token_set_ratio and extract.

Python floats that appear as similarity scores are embedded as rationals;
cell values are an inductive Value type covering strings, finite numbers,
NaN and None, which is what the pipeline distinguishes.
-/

/-- A cell value of the table: a string, a finite number, a float NaN, or a
missing value (Python None).  Numbers are embedded as integers; no claim
depends on fractional cell values. -/
inductive Value where
  | vStr (s : String)
  | vNum (n : Int)
  | vNan
  | vNone
deriving DecidableEq

/-- Python str(value): identity on strings, decimal rendering of numbers,
"nan" for float NaN and "None" for None (as pandas astype(str) produces). -/
def Value.toStr : Value → String
  | Value.vStr s => s
  | Value.vNum n => toString n
  | Value.vNan => "nan"
  | Value.vNone => "None"

/-- pandas pd.notna: false exactly on NaN and None. -/
def Value.notna : Value → Bool
  | Value.vNan => false
  | Value.vNone => false
  | _ => true

/-- A pandas DataFrame as the pipeline sees it: ordered column names, a
numeric-dtype flag per column (pd.api.types.is_numeric_dtype), and rows
aligned with the column list. -/
structure Table where
  cols : List String
  kinds : List Bool
  rows : List (List Value)
deriving DecidableEq

/-- Parametric model of the Unicode-data-driven primitives used by
search.py: per-character canonical decomposition (NFD), the non-spacing
combining mark test (category Mn), per-character lowercasing (which may
expand, as Python str.lower can), an uppercase test and the whitespace
test used by str.strip and str.split. -/
structure UnicodeModel where
  nfdChar : Char → List Char
  isMn : Char → Bool
  lowerChar : Char → List Char
  isUpper : Char → Bool
  isSpace : Char → Bool

/-- unicodedata.normalize("NFD", s) followed by dropping category-Mn code
points, as in strip_accents (search.py lines 43-45). -/
def stripAccentsL (U : UnicodeModel) (l : List Char) : List Char :=
  (l.flatMap U.nfdChar).filter (fun c => !U.isMn c)

/-- str.lower applied character-wise (Python lowercasing may expand a
character to several). -/
def lowerL (U : UnicodeModel) (l : List Char) : List Char :=
  l.flatMap U.lowerChar

/-- str.strip: drop leading and trailing characters satisfying sp. -/
def trimL (sp : Char → Bool) (l : List Char) : List Char :=
  ((l.dropWhile sp).reverse.dropWhile sp).reverse

/-- strip_accents (search.py lines 43-45) on strings. -/
def strip_accents (U : UnicodeModel) (s : String) : String :=
  String.mk (stripAccentsL U s.data)

/-- The string path of normalize_text: strip_accents(str(value)).lower().strip()
(search.py line 51). -/
def normStr (U : UnicodeModel) (s : String) : String :=
  String.mk (trimL U.isSpace (lowerL U (stripAccentsL U s.data)))

/-- normalize_text (search.py lines 48-51): None and float NaN yield the
empty string; any other value is rendered to text, accent-stripped,
lowercased and trimmed. -/
def normalize_text (U : UnicodeModel) : Value → String
  | Value.vNone => ""
  | Value.vNan => ""
  | v => normStr U v.toStr

/-- The five keyword vocabularies SPECIAL_KEYS of search.py lines 34-40. -/
def nameKeys : List String := ["termek", "termék", "megnevez", "product", "item", "cikk"]

def brandKeys : List String := ["marka", "márka", "brand"]

def storeKeys : List String := ["aruhaz", "áruház", "bolt", "lanc", "lánc", "store"]

def priceKeys : List String := ["ar", "ár", "brutto", "bruttó", "price"]

def idKeys : List String := ["id", "azonosito", "azonosító", "ean", "gtin"]

/-- Python substring containment (key in lowered). -/
def containsKey (key s : String) : Bool :=
  decide (key.data <:+: s.data)

/-- Position of a column name in the column list (first occurrence), the
lookup underlying pandas row and dtype access by name. -/
def colIdx (c : String) : List String → Option Nat
  | [] => none
  | d :: ds => if d = c then some 0 else (colIdx c ds).map (· + 1)

/-- row.get(col): the value stored under a column name, None when the
column is absent. -/
def rowGet (cols : List String) (row : List Value) (c : String) : Value :=
  match colIdx c cols with
  | some i => row.getD i Value.vNone
  | none => Value.vNone

/-- row.get(col, default): like rowGet but with an explicit default for an
absent column. -/
def rowGetD (cols : List String) (row : List Value) (c : String) (dflt : Value) : Value :=
  match colIdx c cols with
  | some i => row.getD i Value.vNone
  | none => dflt

/-- pd.api.types.is_numeric_dtype on a column list / kind list pair: the
numeric-kind flag of the column, false for an absent column. -/
def isNumericCK (cols : List String) (kinds : List Bool) (c : String) : Bool :=
  match colIdx c cols with
  | some i => kinds.getD i false
  | none => false

/-- pd.api.types.is_numeric_dtype(df[col]). -/
def isNumericCol (t : Table) (c : String) : Bool :=
  isNumericCK t.cols t.kinds c

/-- Modelled from the spec (section 4.4): the minimum-edit distance with
single-character insertions and deletions only (no substitutions), used by
the base ratio of rapidfuzz, whose code is not part of this repository.
Structural fuel recursion; the fuel argument is always called with the sum
of the lengths, which the recursion never exhausts before a base case. -/
def indelAux : Nat → List Char → List Char → Nat
  | 0, a, b => a.length + b.length
  | _ + 1, [], b => b.length
  | _ + 1, a, [] => a.length
  | fuel + 1, a :: as, b :: bs =>
    if a = b then indelAux fuel as bs
    else 1 + min (indelAux fuel as (b :: bs)) (indelAux fuel (a :: as) bs)

/-- Modelled from the spec: dist(a, b), the insertion/deletion edit
distance between two strings. -/
def indelDist (a b : List Char) : Nat :=
  indelAux (a.length + b.length) a b

/-- Modelled from the spec (section 4.4): the base ratio of rapidfuzz,
ratio(a,b) = 100 * (len(a)+len(b) - dist(a,b)) / (len(a)+len(b)), with
ratio("", "") = 100 special-cased to avoid division by zero.  The exact
rational is built with Rat.divInt; the numerator and denominator are the
integers of the spec's formula. -/
def ratio (a b : String) : Rat :=
  if a.data.length + b.data.length = 0 then 100
  else
    Rat.divInt (100 * ((a.data.length + b.data.length : Int) - (indelDist a.data b.data : Int)))
      (a.data.length + b.data.length : Int)

/-- Splitting a character list on separator characters; fields between
consecutive separators are returned, including empty ones. -/
def splitFields (sp : Char → Bool) : List Char → List Char → List String
  | [], acc => [String.mk acc.reverse]
  | c :: cs, acc =>
    if sp c then String.mk acc.reverse :: splitFields sp cs []
    else splitFields sp cs (c :: acc)

/-- Modelled from the spec (section 4.4): tokenize on whitespace into a
set (duplicate tokens collapse); Python str.split() discards empty
fields. -/
def tokens (s : String) : List String :=
  ((splitFields Char.isWhitespace s.data []).filter (fun w => w ≠ "")).dedup

/-- Boolean lexicographic-order comparator on strings (code-point
lexicographic, as Python sorted on str), used to sort token sets. -/
def strLe (a b : String) : Bool :=
  decide (a.data ≤ b.data)

/-- Insertion into a list sorted by the boolean comparator le. -/
def insertBy (le : α → α → Bool) (x : α) : List α → List α
  | [] => [x]
  | y :: ys => if le x y then x :: y :: ys else y :: insertBy le x ys

/-- Insertion sort by the boolean comparator le. -/
def sortBy (le : α → α → Bool) : List α → List α
  | [] => []
  | x :: xs => insertBy le x (sortBy le xs)

/-- Modelled from the spec (section 4.4): rapidfuzz fuzz.token_set_ratio.
Both strings are tokenized on whitespace into sets; with I the common
tokens, Dq the query-only tokens and Dc the candidate-only tokens, the
three comparison strings are the space-joins of sort(I), sort(I)+sort(Dq)
and sort(I)+sort(Dc), and the general result is the maximum of the three
pairwise base ratios.  The boundary values fixed by the spec (sections 4.4,
7 and 8) are special-cased first: two token-less strings score 100, and a
token-less string against a tokenized one scores 0. -/
def token_set_ratio (query candidate : String) : Rat :=
  let tq := tokens query
  let tc := tokens candidate
  if tq = [] ∧ tc = [] then 100
  else if tq = [] ∨ tc = [] then 0
  else
    let inter := tq.filter (fun w => w ∈ tc)
    let dq := tq.filter (fun w => w ∉ tc)
    let dc := tc.filter (fun w => w ∉ tq)
    let sI := " ".intercalate (sortBy strLe inter)
    let sQ := " ".intercalate (sortBy strLe inter ++ sortBy strLe dq)
    let sC := " ".intercalate (sortBy strLe inter ++ sortBy strLe dc)
    max (max (ratio sI sQ) (ratio sI sC)) (ratio sQ sC)

/-- The reference expression of the claim, written exactly from the spec's
words (section 4.4): the maximum of the three pairwise base ratios over
the sorted intersection/difference token reconstructions, with no
special-casing of empty token sets. -/
def token_set_ratio_formula (query candidate : String) : Rat :=
  let tq := tokens query
  let tc := tokens candidate
  let inter := tq.filter (fun w => w ∈ tc)
  let dq := tq.filter (fun w => w ∉ tc)
  let dc := tc.filter (fun w => w ∉ tq)
  let sI := " ".intercalate (sortBy strLe inter)
  let sQ := " ".intercalate (sortBy strLe inter ++ sortBy strLe dq)
  let sC := " ".intercalate (sortBy strLe inter ++ sortBy strLe dc)
  max (max (ratio sI sQ) (ratio sI sC)) (ratio sQ sC)

example : token_set_ratio "" "" = 100 := by decide
example : token_set_ratio "x" "" = 0 := by decide
example : token_set_ratio_formula "x" "" = 100 := by decide
example : ratio "a" "a b" = 50 := by decide
example : token_set_ratio "b a" "a c" = Rat.divInt 200 3 := by decide
example : token_set_ratio "alma" "alma" = 100 := by decide

/-- ColumnSchema (search.py lines 14-20): the five inferred role lists. -/
structure ColumnSchema where
  name_columns : List String
  brand_columns : List String
  store_columns : List String
  price_columns : List String
  id_columns : List String
deriving DecidableEq

/-- The pick helper of detect_columns (search.py lines 57-58): the columns,
in table order, whose normalized name contains some keyword as a
substring. -/
def pickCols (U : UnicodeModel) (keys : List String) (cols : List String) : List String :=
  cols.filter (fun c => keys.any (fun k => containsKey k (normStr U c)))

/-- detect_columns (search.py lines 54-79) as a function of the column
names and per-column value kinds, which is all the source reads.  The
name fallback indexes df.columns[0], which fails on a zero-column table
(the InvalidTable error of the spec), hence the Option result. -/
def detectAux (U : UnicodeModel) (cols : List String) (kinds : List Bool) :
    Option ColumnSchema :=
  let price0 := cols.filter (fun c =>
    (priceKeys.any (fun k => containsKey k (normStr U c))) && isNumericCK cols kinds c)
  let price_columns := if price0 = [] then cols.filter (isNumericCK cols kinds) else price0
  if pickCols U nameKeys cols = [] then
    match cols with
    | [] => none
    | c0 :: _ =>
      some ⟨[c0], pickCols U brandKeys cols, pickCols U storeKeys cols, price_columns,
        pickCols U idKeys cols⟩
  else
    some ⟨pickCols U nameKeys cols, pickCols U brandKeys cols, pickCols U storeKeys cols,
      price_columns, pickCols U idKeys cols⟩

/-- detect_columns (search.py lines 54-79). -/
def detect_columns (U : UnicodeModel) (t : Table) : Option ColumnSchema :=
  detectAux U t.cols t.kinds

/-- build_search_text (search.py lines 82-88): normalize the values of the
name then brand columns, drop the empty ones, join with a single space. -/
def build_search_text (U : UnicodeModel) (cols : List String) (row : List Value)
    (s : ColumnSchema) : String :=
  " ".intercalate
    (((s.name_columns ++ s.brand_columns).map
        (fun c => normalize_text U (rowGet cols row c))).filter (fun w => w ≠ ""))

/-- pandas column assignment df[c] = vs: overwrite the column in place when
the name exists, otherwise append a new (non-numeric) column at the end. -/
def setColumn (t : Table) (c : String) (vs : List Value) : Table :=
  match colIdx c t.cols with
  | some i => { t with rows := (t.rows.zip vs).map (fun p => p.1.set i p.2) }
  | none =>
    { cols := t.cols ++ [c], kinds := t.kinds ++ [false],
      rows := (t.rows.zip vs).map (fun p => p.1 ++ [p.2]) }

/-- The label join of prepare_index line 95:
df[schema.name_columns].astype(str).agg(" | ".join, axis=1) on one row. -/
def labelJoin (cols : List String) (row : List Value) (ncs : List String) : String :=
  " | ".intercalate (ncs.map (fun c => (rowGet cols row c).toStr))

/-- Line 94 of prepare_index: df["__search_text"] = df.apply(build_search_text),
performed on the copy of the frame. -/
def prepare_step1 (U : UnicodeModel) (t : Table) (s : ColumnSchema) : Table :=
  setColumn t "__search_text"
    (t.rows.map (fun r => Value.vStr (build_search_text U t.cols r s)))

/-- Line 95 of prepare_index: df["__label"] = the " | "-join of the name
columns rendered as text, computed on the frame produced by line 94. -/
def prepare_step2 (U : UnicodeModel) (t : Table) (s : ColumnSchema) : Table :=
  setColumn (prepare_step1 U t s) "__label"
    ((prepare_step1 U t s).rows.map
      (fun r => Value.vStr (labelJoin (prepare_step1 U t s).cols r s.name_columns)))

/-- The body of prepare_index (search.py lines 93-98) after the schema has
been resolved: work on a copy, add the __search_text column, add the
__label column, and when brand columns exist rebuild __label (lines 96-97)
with the first brand value appended in parentheses. -/
def prepare_index_core (U : UnicodeModel) (t : Table) (s : ColumnSchema) : Table :=
  match s.brand_columns with
  | [] => prepare_step2 U t s
  | b :: _ =>
    setColumn (prepare_step2 U t s) "__label"
      ((prepare_step2 U t s).rows.map (fun r => Value.vStr
        ((rowGet (prepare_step2 U t s).cols r "__label").toStr ++ " (" ++
          (rowGet (prepare_step2 U t s).cols r b).toStr ++ ")")))

/-- prepare_index (search.py lines 91-98): schema = schema or
detect_columns(df), then the core body on a copy of the frame. -/
def prepare_index (U : UnicodeModel) (t : Table) (os : Option ColumnSchema) : Option Table :=
  match os with
  | some s => some (prepare_index_core U t s)
  | none => (detect_columns U t).map (prepare_index_core U t)

/-- One entry of the rapidfuzz process.extract result: the matched
candidate text, its score, and the candidate's position. -/
structure Scored where
  text : String
  score : Rat
  idx : Nat
deriving DecidableEq

/-- Comparator ordering scored candidates by descending score, ties by
ascending original position. -/
def scoredLe (a b : Scored) : Bool :=
  decide (b.score < a.score) || (decide (a.score = b.score) && decide (a.idx ≤ b.idx))

/-- Modelled from the spec (section 4.5): the scoring pass of
process.extract computes token_set_ratio(query, candidates[i]) for every
position i. -/
def score_all (q : String) (cs : List String) : List Scored :=
  cs.enum.map (fun p => ⟨p.2, token_set_ratio q p.2, p.1⟩)

/-- Modelled from the spec (section 4.5): rapidfuzz
process.extract(query, candidates, scorer=token_set_ratio, limit=limit),
which is not part of this repository: score every candidate, sort by
descending score with earlier index winning ties, truncate to limit. -/
def extract (q : String) (cs : List String) (limit : Nat) : List Scored :=
  (sortBy scoredLe (score_all q cs)).take limit

/-- The column values df[c] of a table, in row order. -/
def colValues (t : Table) (c : String) : List Value :=
  t.rows.map (fun r => rowGet t.cols r c)

/-- str(value).strip() as used by _first_non_empty. -/
def trimStr (U : UnicodeModel) (s : String) : String :=
  String.mk (trimL U.isSpace s.data)

/-- _first_non_empty (search.py lines 110-117): the first non-NA value in
the given columns whose stripped textual form is non-empty. -/
def first_non_empty (U : UnicodeModel) (cols : List String) (row : List Value) :
    List String → Option String
  | [] => none
  | c :: cs =>
    let v := rowGet cols row c
    if v.notna then
      let text := trimStr U v.toStr
      if text ≠ "" then some text else first_non_empty U cols row cs
    else first_non_empty U cols row cs

/-- _extract_prices (search.py lines 101-107): each price column whose
value is a real number (not NaN, not missing, not text), with its value. -/
def extract_prices (cols : List String) (row : List Value) (pcs : List String) :
    List (String × Int) :=
  pcs.filterMap (fun c =>
    match rowGet cols row c with
    | Value.vNum n => some (c, n)
    | _ => none)

/-- MatchResult (search.py lines 23-31). -/
structure MatchResult where
  label : String
  score : Rat
  store : Option String
  prices : List (String × Int)
  brand : Option String
  product_id : Option String
  source_row : List (String × Value)
deriving DecidableEq

/-- The body of the result loop of search_products (search.py lines
156-173) for one surviving scored entry. -/
def mkResult (U : UnicodeModel) (t : Table) (s : ColumnSchema) (e : Scored) : MatchResult :=
  let row := t.rows.getD e.idx []
  { label := (rowGetD t.cols row "__label" (Value.vStr e.text)).toStr
    score := e.score
    store := first_non_empty U t.cols row s.store_columns
    prices := extract_prices t.cols row s.price_columns
    brand := first_non_empty U t.cols row s.brand_columns
    product_id := first_non_empty U t.cols row s.id_columns
    source_row := t.cols.zip row }

/-- The schema/frame resolution at the top of search_products (search.py
lines 143-147): when the __search_text column is absent the frame is
re-indexed with the resolved schema; otherwise the frame is used as is. -/
def resolve_index (U : UnicodeModel) (t : Table) (os : Option ColumnSchema) :
    Option (Table × ColumnSchema) :=
  if "__search_text" ∈ t.cols then
    match os with
    | some s => some (t, s)
    | none => (detect_columns U t).map (fun s => (t, s))
  else
    match os with
    | some s => some (prepare_index_core U t s, s)
    | none => (detect_columns U t).map (fun s => (prepare_index_core U t s, s))

/-- The scored candidate list of search_products (lines 149-151): extract
over the normalized query and the __search_text column. -/
def search_scored (U : UnicodeModel) (t : Table) (q : String) (limit : Nat) : List Scored :=
  extract (normStr U q) ((colValues t "__search_text").map Value.toStr) limit

/-- search_products (search.py lines 120-174). -/
def search_products (U : UnicodeModel) (t : Table) (q : String) (limit : Nat)
    (min_score : Rat) (os : Option ColumnSchema) : Option (List MatchResult) :=
  (resolve_index U t os).map (fun ts =>
    (search_scored U ts.1 q limit).filterMap (fun e =>
      if e.score < min_score then none else some (mkResult U ts.1 ts.2 e)))

/-- _compact_row (server.py lines 71-73): drop the entries whose key
starts with a double underscore. -/
def compact_row (row : List (String × Value)) : List (String × Value) :=
  row.filter (fun p => !(decide ("__".data <+: p.1.data)))

/-- A heap of pandas DataFrame objects, for the frame conditions: Python
variables hold references (positions) into the store. -/
def readRef (σ : List Table) (r : Nat) : Table :=
  σ.getD r ⟨[], [], []⟩

/-- Overwriting the object a reference points to. -/
def writeRef (σ : List Table) (r : Nat) (t : Table) : List Table :=
  σ.set r t

/-- prepare_index (search.py lines 91-98) at the object level, statement
by statement: resolve the schema, allocate the copy df.copy(), then the
three column assignments all target the copy's reference.  Returns the
final store and the reference the function's local df holds. -/
def prepare_index_obj (U : UnicodeModel) (σ : List Table) (df : Nat)
    (os : Option ColumnSchema) : Option (List Table × Nat) :=
  match (match os with | some s => some s | none => detect_columns U (readRef σ df)) with
  | none => none
  | some s =>
    let σ1 := σ ++ [readRef σ df]
    let d1 := σ.length
    let σ2 := writeRef σ1 d1 (setColumn (readRef σ1 d1) "__search_text"
      ((readRef σ1 d1).rows.map (fun r => Value.vStr (build_search_text U (readRef σ1 d1).cols r s))))
    let σ3 := writeRef σ2 d1 (setColumn (readRef σ2 d1) "__label"
      ((readRef σ2 d1).rows.map (fun r => Value.vStr (labelJoin (readRef σ2 d1).cols r s.name_columns))))
    match s.brand_columns with
    | [] => some (σ3, d1)
    | b :: _ =>
      some (writeRef σ3 d1 (setColumn (readRef σ3 d1) "__label"
        ((readRef σ3 d1).rows.map (fun r => Value.vStr
          ((rowGet (readRef σ3 d1).cols r "__label").toStr ++ " (" ++
            (rowGet (readRef σ3 d1).cols r b).toStr ++ ")")))), d1)

/-- search_products (search.py lines 120-174) at the object level: the
branch on the presence of __search_text either rebinds the local df to the
reference returned by prepare_index, or keeps the caller's reference; all
remaining statements only read. -/
def search_products_obj (U : UnicodeModel) (σ : List Table) (df : Nat) (q : String)
    (limit : Nat) (min_score : Rat) (os : Option ColumnSchema) :
    Option (List Table × List MatchResult) :=
  if "__search_text" ∈ (readRef σ df).cols then
    match (match os with | some s => some s | none => detect_columns U (readRef σ df)) with
    | none => none
    | some s =>
      some (σ, (search_scored U (readRef σ df) q limit).filterMap (fun e =>
        if e.score < min_score then none else some (mkResult U (readRef σ df) s e)))
  else
    match (match os with | some s => some s | none => detect_columns U (readRef σ df)) with
    | none => none
    | some s =>
      match prepare_index_obj U σ df (some s) with
      | none => none
      | some (σ1, d1) =>
        some (σ1, (search_scored U (readRef σ1 d1) q limit).filterMap (fun e =>
          if e.score < min_score then none else some (mkResult U (readRef σ1 d1) s e)))

/-- A concrete instantiation of the Unicode primitives restricted to what
concrete ASCII test data exercises: no decompositions, no combining
marks, ASCII lowercasing. -/
def asciiUM : UnicodeModel where
  nfdChar := fun c => [c]
  isMn := fun _ => false
  lowerChar := fun c => [c.toLower]
  isUpper := fun c => c.isUpper
  isSpace := Char.isWhitespace

/-- The identity instantiation of the Unicode primitives; it satisfies the
Unicode-fact hypotheses of the normalization theorems definitionally. -/
def idUM : UnicodeModel where
  nfdChar := fun c => [c]
  isMn := fun _ => false
  lowerChar := fun c => [c]
  isUpper := fun _ => false
  isSpace := Char.isWhitespace

example : normStr asciiUM "  Termek  " = "termek" := by decide
example : normalize_text asciiUM Value.vNan = "" := by decide
example : detectAux asciiUM ["Termek nev", "Marka", "Bolt", "Brutto ar"] [false, false, false, true] =
    some ⟨["Termek nev"], ["Marka"], ["Bolt"], ["Brutto ar"], []⟩ := by decide

example :
    (search_products asciiUM ⟨["Termek"], [false], [[Value.vStr "Alma"], [Value.vStr "Korte"]]⟩
        "alma" 5 0 none).map (List.map MatchResult.score) = some [100, 0] := by decide

example :
    (search_products asciiUM ⟨["Termek"], [false], [[Value.vStr "Alma"], [Value.vStr "Korte"]]⟩
        "alma" 5 0 none).map (List.map MatchResult.label) = some ["Alma", "Korte"] := by decide

theorem insertBy_perm (le : α → α → Bool) (x : α) (l : List α) :
    List.Perm (insertBy le x l) (x :: l) := by
  induction l with
  | nil => simp [insertBy]
  | cons y ys ih =>
    simp only [insertBy]
    cases hle : le x y with
    | true => simp
    | false =>
      simp only [Bool.false_eq_true, if_false]
      exact (ih.cons y).trans (List.Perm.swap x y ys)

theorem sortBy_perm (le : α → α → Bool) (l : List α) :
    List.Perm (sortBy le l) l := by
  induction l with
  | nil => simp [sortBy]
  | cons x xs ih => exact (insertBy_perm le x (sortBy le xs)).trans (ih.cons x)

theorem pairwise_insertBy {le : α → α → Bool}
    (htot : ∀ a b, le a b = true ∨ le b a = true)
    (htrans : ∀ a b c, le a b = true → le b c = true → le a c = true)
    (x : α) {l : List α} (h : l.Pairwise (fun a b => le a b = true)) :
    (insertBy le x l).Pairwise (fun a b => le a b = true) := by
  induction l with
  | nil => simp [insertBy]
  | cons y ys ih =>
    rcases List.pairwise_cons.mp h with ⟨hy, hys⟩
    simp only [insertBy]
    cases hle : le x y with
    | true =>
      refine List.pairwise_cons.mpr ⟨?_, h⟩
      intro z hz
      rcases List.mem_cons.mp hz with rfl | hz'
      · exact hle
      · exact htrans x y z hle (hy z hz')
    | false =>
      have hyx : le y x = true := by
        rcases htot x y with hxy | hyx
        · exact absurd hxy (by simp [hle])
        · exact hyx
      simp only [Bool.false_eq_true, if_false]
      refine List.pairwise_cons.mpr ⟨?_, ih hys⟩
      intro z hz
      rcases List.mem_cons.mp ((insertBy_perm le x ys).mem_iff.mp hz) with rfl | hz'
      · exact hyx
      · exact hy z hz'

theorem pairwise_sortBy {le : α → α → Bool}
    (htot : ∀ a b, le a b = true ∨ le b a = true)
    (htrans : ∀ a b c, le a b = true → le b c = true → le a c = true)
    (l : List α) : (sortBy le l).Pairwise (fun a b => le a b = true) := by
  induction l with
  | nil => simp [sortBy]
  | cons x xs ih => exact pairwise_insertBy htot htrans x ih

theorem scoredLe_total : ∀ a b : Scored, scoredLe a b = true ∨ scoredLe b a = true := by
  intro a b
  simp only [scoredLe, Bool.or_eq_true, Bool.and_eq_true, decide_eq_true_eq]
  rcases lt_trichotomy a.score b.score with h | h | h
  · exact Or.inr (Or.inl h)
  · rcases Nat.le_total a.idx b.idx with hi | hi
    · exact Or.inl (Or.inr ⟨h, hi⟩)
    · exact Or.inr (Or.inr ⟨h.symm, hi⟩)
  · exact Or.inl (Or.inl h)

theorem scoredLe_trans : ∀ a b c : Scored,
    scoredLe a b = true → scoredLe b c = true → scoredLe a c = true := by
  intro a b c hab hbc
  simp only [scoredLe, Bool.or_eq_true, Bool.and_eq_true, decide_eq_true_eq] at *
  rcases hab with h1 | ⟨h1, h1i⟩
  · rcases hbc with h2 | ⟨h2, _⟩
    · exact Or.inl (h2.trans h1)
    · exact Or.inl (h2 ▸ h1)
  · rcases hbc with h2 | ⟨h2, h2i⟩
    · exact Or.inl (by rw [h1]; exact h2)
    · exact Or.inr ⟨h1.trans h2, h1i.trans h2i⟩

theorem colIdx_eq_none_iff (c : String) : ∀ l : List String, colIdx c l = none ↔ c ∉ l := by
  intro l
  induction l with
  | nil => simp [colIdx]
  | cons d ds ih =>
    by_cases h : d = c
    · subst h
      simp [colIdx]
    · simp only [colIdx, h, if_false]
      constructor
      · intro hn hmem
        rcases List.mem_cons.mp hmem with rfl | hm
        · exact h rfl
        · have hnone : colIdx c ds = none := by
            cases hi : colIdx c ds with
            | none => rfl
            | some i => rw [hi] at hn; exact absurd hn (by simp)
          exact (ih.mp hnone) hm
      · intro hnm
        have h1 : c ∉ ds := fun hm => hnm (List.mem_cons_of_mem d hm)
        rw [ih.mpr h1]
        rfl

theorem colIdx_some_lt {c : String} : ∀ {l : List String} {i : Nat},
    colIdx c l = some i → i < l.length := by
  intro l
  induction l with
  | nil => intro i h; exact absurd h (by simp [colIdx])
  | cons d ds ih =>
    intro i h
    by_cases hd : d = c
    · simp only [colIdx, hd, if_true] at h
      have h0 : (0 : Nat) = i := by simpa using h
      simp only [List.length_cons]
      omega
    · simp only [colIdx, hd, if_false] at h
      cases hi : colIdx c ds with
      | none => rw [hi] at h; exact absurd h (by simp)
      | some j =>
        rw [hi] at h
        have hj := ih hi
        have hji : j + 1 = i := by simpa using h
        simp only [List.length_cons]
        omega

theorem colIdx_append_left {c : String} {l : List String} (l2 : List String) (h : c ∈ l) :
    colIdx c (l ++ l2) = colIdx c l := by
  induction l with
  | nil => simp at h
  | cons d ds ih =>
    by_cases hd : d = c
    · simp [colIdx, hd]
    · have hm : c ∈ ds := by
        rcases List.mem_cons.mp h with rfl | hm
        · exact absurd rfl hd
        · exact hm
      simp [colIdx, hd, ih hm]

theorem colIdx_append_of_not_mem {c : String} {l : List String} (l2 : List String)
    (h : c ∉ l) : colIdx c (l ++ l2) = (colIdx c l2).map (· + l.length) := by
  induction l with
  | nil => simp
  | cons d ds ih =>
    have hd : d ≠ c := fun he => h (he ▸ List.mem_cons_self d ds)
    have hm : c ∉ ds := fun hmem => h (List.mem_cons_of_mem d hmem)
    simp only [List.cons_append, colIdx, hd, if_false, List.append_eq]
    rw [ih hm]
    cases colIdx c l2 with
    | none => rfl
    | some i => rfl

theorem getD_append_lt {α : Type} {r l2 : List α} {i : Nat} (d : α) (h : i < r.length) :
    (r ++ l2).getD i d = r.getD i d := by
  simp [List.getD_eq_getElem?_getD, List.getElem?_append_left h]

theorem getD_append_len {α : Type} {r l2 : List α} (d : α) (k : Nat) :
    (r ++ l2).getD (r.length + k) d = l2.getD k d := by
  simp only [List.getD_eq_getElem?_getD]
  rw [List.getElem?_append_right (by omega)]
  simp

theorem set_append_right {α : Type} (r : List α) (l2 : List α) (k : Nat) (x : α) :
    (r ++ l2).set (r.length + k) x = r ++ l2.set k x := by
  induction r with
  | nil => simp
  | cons a as ih => simp [List.length_cons, Nat.succ_add, ih]

theorem zip_map_append (l : List (List Value)) (g : List Value → Value) :
    (List.zip l (l.map g)).map (fun p => p.1 ++ [p.2]) = l.map (fun r => r ++ [g r]) := by
  induction l with
  | nil => rfl
  | cons a as ih => simp [ih]

theorem zip_map_set (l : List (List Value)) (g : List Value → Value) (i : Nat) :
    (List.zip l (l.map g)).map (fun p => p.1.set i p.2) = l.map (fun r => r.set i (g r)) := by
  induction l with
  | nil => rfl
  | cons a as ih => simp [ih]

theorem rowGet_append {cols ex : List String} {row re : List Value} {c : String}
    (hc : c ∈ cols) (hr : row.length = cols.length) :
    rowGet (cols ++ ex) (row ++ re) c = rowGet cols row c := by
  unfold rowGet
  rw [colIdx_append_left ex hc]
  cases hi : colIdx c cols with
  | none => exact absurd hc (by rwa [colIdx_eq_none_iff] at hi)
  | some i =>
    have hlt := colIdx_some_lt hi
    simp only
    exact getD_append_lt _ (by omega)

theorem extract_length_le (q : String) (cs : List String) (limit : Nat) :
    (extract q cs limit).length ≤ limit := by
  simp [extract]

theorem extract_pairwise (q : String) (cs : List String) (limit : Nat) :
    (extract q cs limit).Pairwise (fun a b => scoredLe a b = true) :=
  (pairwise_sortBy scoredLe_total scoredLe_trans (score_all q cs)).sublist
    (List.take_sublist limit _)

theorem score_all_map_idx (q : String) (cs : List String) :
    (score_all q cs).map Scored.idx = List.range cs.length := by
  simp [score_all, List.map_map, Function.comp]
  exact List.enum_map_fst cs

theorem extract_idx_nodup (q : String) (cs : List String) (limit : Nat) :
    ((extract q cs limit).map Scored.idx).Nodup := by
  have hperm : List.Perm ((sortBy scoredLe (score_all q cs)).map Scored.idx)
      ((score_all q cs).map Scored.idx) :=
    (sortBy_perm scoredLe (score_all q cs)).map Scored.idx
  have hnodup : ((sortBy scoredLe (score_all q cs)).map Scored.idx).Nodup := by
    rw [hperm.nodup_iff, score_all_map_idx]
    exact List.nodup_range _
  have hsub : ((extract q cs limit).map Scored.idx).Sublist
      ((sortBy scoredLe (score_all q cs)).map Scored.idx) := by
    simpa [extract, List.map_take] using
      (List.take_sublist limit ((sortBy scoredLe (score_all q cs)).map Scored.idx))
  exact hnodup.sublist hsub

theorem extract_mem_idx_lt {q : String} {cs : List String} {limit : Nat} {e : Scored}
    (h : e ∈ extract q cs limit) : e.idx < cs.length := by
  have h1 : e ∈ sortBy scoredLe (score_all q cs) := List.mem_of_mem_take h
  have h2 : e ∈ score_all q cs := (sortBy_perm scoredLe (score_all q cs)).mem_iff.mp h1
  have h3 : e.idx ∈ (score_all q cs).map Scored.idx := List.mem_map_of_mem Scored.idx h2
  rw [score_all_map_idx] at h3
  exact List.mem_range.mp h3

theorem filterMap_if_eq_map_filter {α β : Type} (p : α → Prop) [DecidablePred p]
    (f : α → β) (l : List α) :
    (l.filterMap (fun e => if p e then none else some (f e))) =
      (l.filter (fun e => !decide (p e))).map f := by
  induction l with
  | nil => rfl
  | cons x xs ih => by_cases h : p x <;> simp [h, ih]

theorem mkResult_score (U : UnicodeModel) (t : Table) (s : ColumnSchema) (e : Scored) :
    (mkResult U t s e).score = e.score := rfl

/-- C1: for every table, query, limit and min_score, the result sequence of
search_products has length at most limit, every returned MatchResult has a
score at least min_score (the comparison that keeps a result is the strict
complement of score < min_score, so a score equal to min_score is kept),
the scores are non-increasing across the sequence, and the underlying
scored sequence is ordered by descending score with ties between equal
scores broken in favour of the earlier row index. -/
theorem search_products_ordering
    (U : UnicodeModel) (t : Table) (q : String) (limit : Nat) (ms : Rat)
    (os : Option ColumnSchema) (res : List MatchResult)
    (hres : search_products U t q limit ms os = some res) :
    res.length ≤ limit ∧
    (∀ r ∈ res, ms ≤ r.score) ∧
    (res.map MatchResult.score).Pairwise (fun a b => b ≤ a) ∧
    ∃ ts, resolve_index U t os = some ts ∧
      res = ((search_scored U ts.1 q limit).filter
          (fun e => !decide (e.score < ms))).map (mkResult U ts.1 ts.2) ∧
      ((search_scored U ts.1 q limit).filter (fun e => !decide (e.score < ms))).Pairwise
        (fun a b => b.score < a.score ∨ (a.score = b.score ∧ a.idx < b.idx)) := by
  rcases Option.map_eq_some'.mp hres with ⟨ts, hts, hfn⟩
  have hres' : res = ((search_scored U ts.1 q limit).filter
      (fun e => !decide (e.score < ms))).map (mkResult U ts.1 ts.2) := by
    rw [← hfn]
    exact filterMap_if_eq_map_filter (fun e : Scored => e.score < ms) (mkResult U ts.1 ts.2) _
  have hP : (search_scored U ts.1 q limit).Pairwise (fun a b => scoredLe a b = true) :=
    extract_pairwise _ _ _
  have hPf : ((search_scored U ts.1 q limit).filter
      (fun e => !decide (e.score < ms))).Pairwise (fun a b => scoredLe a b = true) :=
    hP.filter _
  have hidx : (((search_scored U ts.1 q limit).filter
      (fun e => !decide (e.score < ms))).map Scored.idx).Nodup := by
    have hsub : (((search_scored U ts.1 q limit).filter
        (fun e => !decide (e.score < ms))).map Scored.idx).Sublist
        ((search_scored U ts.1 q limit).map Scored.idx) :=
      (List.filter_sublist _).map Scored.idx
    exact (extract_idx_nodup _ _ _).sublist hsub
  refine ⟨?_, ?_, ?_, ts, hts, hres', ?_⟩
  · rw [hres', List.length_map]
    exact le_trans (List.length_filter_le _ _) (extract_length_le _ _ _)
  · intro r hr
    rw [hres'] at hr
    rcases List.mem_map.mp hr with ⟨e, he, hmk⟩
    have hkeep := List.of_mem_filter he
    have : ¬ e.score < ms := by simpa using hkeep
    rw [← hmk, mkResult_score]
    exact not_lt.mp this
  · rw [hres', List.map_map]
    have hcomp : (MatchResult.score ∘ mkResult U ts.1 ts.2) = Scored.score := by
      funext e
      simp [mkResult_score, Function.comp]
    rw [hcomp, List.pairwise_map]
    refine hPf.imp ?_
    intro a b hab
    simp only [scoredLe, Bool.or_eq_true, Bool.and_eq_true, decide_eq_true_eq] at hab
    rcases hab with h | ⟨h, _⟩
    · exact le_of_lt h
    · exact le_of_eq h.symm
  · have hne : ((search_scored U ts.1 q limit).filter
        (fun e => !decide (e.score < ms))).Pairwise (fun a b => a.idx ≠ b.idx) := by
      rw [List.Nodup, List.pairwise_map] at hidx
      exact hidx
    refine (hPf.and hne).imp ?_
    intro a b hab
    rcases hab with ⟨hle, hne'⟩
    simp only [scoredLe, Bool.or_eq_true, Bool.and_eq_true, decide_eq_true_eq] at hle
    rcases hle with h | ⟨h, hi⟩
    · exact Or.inl h
    · exact Or.inr ⟨h, lt_of_le_of_ne hi hne'⟩

/-- A small concrete table used to instantiate the theorems: one textual
product-name column, two rows. -/
def wT1 : Table :=
  ⟨["Termek"], [false], [[Value.vStr "Alma"], [Value.vStr "Korte"]]⟩

/-- The result list search_products produces on wT1 for the query "alma"
with limit 5 and min_score 0. -/
def wRes1 : List MatchResult :=
  [⟨"Alma", 100, none, [], none, none,
      [("Termek", Value.vStr "Alma"), ("__search_text", Value.vStr "alma"),
        ("__label", Value.vStr "Alma")]⟩,
    ⟨"Korte", 0, none, [], none, none,
      [("Termek", Value.vStr "Korte"), ("__search_text", Value.vStr "korte"),
        ("__label", Value.vStr "Korte")]⟩]

example : search_products asciiUM wT1 "alma" 5 0 none = some wRes1 := by decide

theorem search_products_ordering_inst :
    wRes1.length ≤ 5 ∧
    (∀ r ∈ wRes1, (0 : Rat) ≤ r.score) ∧
    (wRes1.map MatchResult.score).Pairwise (fun a b => b ≤ a) ∧
    ∃ ts, resolve_index asciiUM wT1 none = some ts ∧
      wRes1 = ((search_scored asciiUM ts.1 "alma" 5).filter
          (fun e => !decide (e.score < (0 : Rat)))).map (mkResult asciiUM ts.1 ts.2) ∧
      ((search_scored asciiUM ts.1 "alma" 5).filter
          (fun e => !decide (e.score < (0 : Rat)))).Pairwise
        (fun a b => b.score < a.score ∨ (a.score = b.score ∧ a.idx < b.idx)) :=
  search_products_ordering asciiUM wT1 "alma" 5 0 none wRes1 (by decide)

/-- C3 counterexample: at the concrete input pair ("x", ""), the scorer
returns 0 (a token-less string against a tokenized one), while the
reference max-formula of the claim yields 100, because its middle term
ratio(S_I, S_c) compares two empty strings and the empty-versus-empty
special case of the base ratio scores 100.  The claim's clause that the
scorer equals the formula for every pair of strings therefore fails. -/
theorem token_set_ratio_formula_cex :
    token_set_ratio "x" "" = 0 ∧ token_set_ratio_formula "x" "" = 100 ∧
    token_set_ratio "x" "" ≠ token_set_ratio_formula "x" "" := by decide

/-- C3 (amended): for every pair of strings that both contain at least one
whitespace-separated token, token_set_ratio equals the reference
max-formula over the sorted intersection/difference token
reconstructions; token_set_ratio("", "") = 100; and token_set_ratio(x, "")
= 0 for every x with at least one token (rather than for every non-empty
x: the empty cases are special-cased and are not instances of the
formula). -/
theorem token_set_ratio_spec (q c : String) (hq : tokens q ≠ []) (hc : tokens c ≠ []) :
    token_set_ratio q c = token_set_ratio_formula q c ∧
    token_set_ratio "" "" = 100 ∧
    (∀ x : String, tokens x ≠ [] → token_set_ratio x "" = 0) := by
  refine ⟨?_, by decide, ?_⟩
  · simp [token_set_ratio, token_set_ratio_formula, hq, hc]
  · intro x hx
    have h0 : tokens "" = [] := by decide
    simp [token_set_ratio, hx, h0]

theorem token_set_ratio_spec_inst :
    token_set_ratio "b a" "a c" = token_set_ratio_formula "b a" "a c" ∧
    token_set_ratio "" "" = 100 ∧
    (∀ x : String, tokens x ≠ [] → token_set_ratio x "" = 0) :=
  token_set_ratio_spec "b a" "a c" (by decide) (by decide)

theorem detectAux_isSome (U : UnicodeModel) (cols : List String) (kinds : List Bool)
    (h : cols ≠ []) : (detectAux U cols kinds).isSome = true := by
  unfold detectAux
  by_cases hp : pickCols U nameKeys cols = []
  · simp only [hp, if_true]
    cases cols with
    | nil => exact absurd rfl h
    | cons c0 cs => simp
  · simp [hp]

/-- C7: a query that normalizes to the empty string is not an error: the
search proceeds (provided the table itself is not the zero-column
InvalidTable case when the schema must be detected), the scorer is run on
every candidate row, and the returned list still satisfies the min_score
filter. -/
theorem search_products_empty_query (U : UnicodeModel) (t : Table) (q : String)
    (limit : Nat) (ms : Rat) (os : Option ColumnSchema)
    (_hq : normStr U q = "") (hcols : os = none → t.cols ≠ []) :
    ∃ res, search_products U t q limit ms os = some res ∧
      (∀ r ∈ res, ms ≤ r.score) ∧
      ∃ ts, resolve_index U t os = some ts ∧
        (score_all (normStr U q) ((colValues ts.1 "__search_text").map Value.toStr)).length =
          ts.1.rows.length := by
  have hresolve : ∃ ts, resolve_index U t os = some ts := by
    unfold resolve_index
    cases os with
    | some s =>
      by_cases hmem : "__search_text" ∈ t.cols
      · exact ⟨(t, s), by simp [hmem]⟩
      · exact ⟨(prepare_index_core U t s, s), by simp [hmem]⟩
    | none =>
      have hne := hcols rfl
      have hsome := detectAux_isSome U t.cols t.kinds hne
      rcases Option.isSome_iff_exists.mp hsome with ⟨s, hs⟩
      by_cases hmem : "__search_text" ∈ t.cols
      · exact ⟨(t, s), by simp [hmem, detect_columns, hs]⟩
      · exact ⟨(prepare_index_core U t s, s), by simp [hmem, detect_columns, hs]⟩
  rcases hresolve with ⟨ts, hts⟩
  refine ⟨(search_scored U ts.1 q limit).filterMap (fun e =>
      if e.score < ms then none else some (mkResult U ts.1 ts.2 e)), ?_, ?_, ts, hts, ?_⟩
  · simp [search_products, hts]
  · intro r hr
    rcases List.mem_filterMap.mp hr with ⟨e, _, hfe⟩
    by_cases h : e.score < ms
    · rw [if_pos h] at hfe
      exact absurd hfe (by simp)
    · rw [if_neg h] at hfe
      rw [← Option.some.inj hfe, mkResult_score]
      exact not_lt.mp h
  · simp [score_all, colValues]

theorem search_products_empty_query_inst :
    ∃ res, search_products asciiUM wT1 "" 5 45 none = some res ∧
      (∀ r ∈ res, (45 : Rat) ≤ r.score) ∧
      ∃ ts, resolve_index asciiUM wT1 none = some ts ∧
        (score_all (normStr asciiUM "") ((colValues ts.1 "__search_text").map Value.toStr)).length =
          ts.1.rows.length :=
  search_products_empty_query asciiUM wT1 "" 5 45 none (by decide) (fun _ => by decide)

/-- C9: detect_columns reads only the table's column names and per-column
value kinds: two tables agreeing on those yield the same ColumnSchema no
matter what the row values are, and the embedding is a pure function, so
the call has no side effects. -/
theorem detect_columns_only_names_kinds (U : UnicodeModel) (t1 t2 : Table)
    (hc : t1.cols = t2.cols) (hk : t1.kinds = t2.kinds) :
    detect_columns U t1 = detect_columns U t2 := by
  unfold detect_columns
  rw [hc, hk]

theorem detect_columns_only_names_kinds_inst :
    detect_columns asciiUM wT1 =
      detect_columns asciiUM ⟨["Termek"], [false], [[Value.vNum 7], [Value.vNone]]⟩ :=
  detect_columns_only_names_kinds asciiUM wT1
    ⟨["Termek"], [false], [[Value.vNum 7], [Value.vNone]]⟩ rfl rfl

theorem detectAux_char (U : UnicodeModel) (cols : List String) (kinds : List Bool)
    (s : ColumnSchema) (h : detectAux U cols kinds = some s) :
    s.name_columns = (if pickCols U nameKeys cols = [] then cols.take 1
      else pickCols U nameKeys cols) ∧
    s.brand_columns = pickCols U brandKeys cols ∧
    s.store_columns = pickCols U storeKeys cols ∧
    s.price_columns = (if cols.filter (fun c =>
        (priceKeys.any (fun k => containsKey k (normStr U c))) && isNumericCK cols kinds c) = []
      then cols.filter (isNumericCK cols kinds)
      else cols.filter (fun c =>
        (priceKeys.any (fun k => containsKey k (normStr U c))) && isNumericCK cols kinds c)) ∧
    s.id_columns = pickCols U idKeys cols := by
  unfold detectAux at h
  by_cases hp : pickCols U nameKeys cols = []
  · rw [if_pos hp] at h
    cases cols with
    | nil => exact absurd h (by simp)
    | cons c0 cs =>
      injection h with h2
      subst h2
      exact ⟨by rw [if_pos hp]; rfl, rfl, rfl, rfl, rfl⟩
  · rw [if_neg hp] at h
    injection h with h2
    subst h2
    exact ⟨by rw [if_neg hp], rfl, rfl, rfl, rfl⟩

/-- C4: on a table with at least one column, detection succeeds,
name_columns is non-empty and equals the singleton first column when no
column name matches the name vocabulary, every price column has numeric
value kind, and when keyword detection yields no numeric column the price
role falls back to exactly the numeric columns of the table. -/
theorem detect_columns_invariants (U : UnicodeModel) (t : Table) (h : t.cols ≠ []) :
    ∃ s, detect_columns U t = some s ∧
      s.name_columns ≠ [] ∧
      ((∀ c ∈ t.cols, ¬ nameKeys.any (fun k => containsKey k (normStr U c)) = true) →
        s.name_columns = t.cols.take 1) ∧
      (∀ c ∈ s.price_columns, isNumericCol t c = true) ∧
      ((∀ c ∈ t.cols, ¬ (priceKeys.any (fun k => containsKey k (normStr U c)) = true ∧
          isNumericCol t c = true)) →
        s.price_columns = t.cols.filter (isNumericCol t)) := by
  have hs := detectAux_isSome U t.cols t.kinds h
  rcases Option.isSome_iff_exists.mp hs with ⟨s, hsome⟩
  have hchar := detectAux_char U t.cols t.kinds s hsome
  refine ⟨s, hsome, ?_, ?_, ?_, ?_⟩
  · rw [hchar.1]
    by_cases hp : pickCols U nameKeys t.cols = []
    · rw [if_pos hp]
      cases hc : t.cols with
      | nil => exact absurd hc h
      | cons c0 cs => simp
    · rw [if_neg hp]
      exact hp
  · intro hno
    have hp : pickCols U nameKeys t.cols = [] := by
      unfold pickCols
      rw [List.filter_eq_nil_iff]
      exact hno
    rw [hchar.1, if_pos hp]
  · intro c hcm
    rw [hchar.2.2.2.1] at hcm
    by_cases h0 : t.cols.filter (fun c =>
        (priceKeys.any (fun k => containsKey k (normStr U c))) && isNumericCK t.cols t.kinds c) = []
    · rw [if_pos h0] at hcm
      exact List.of_mem_filter hcm
    · rw [if_neg h0] at hcm
      have hpred := List.of_mem_filter hcm
      rw [Bool.and_eq_true] at hpred
      exact hpred.2
  · intro hnone
    rw [hchar.2.2.2.1]
    have h0 : t.cols.filter (fun c =>
        (priceKeys.any (fun k => containsKey k (normStr U c))) && isNumericCK t.cols t.kinds c) = [] := by
      rw [List.filter_eq_nil_iff]
      intro c hcm hand
      exact hnone c hcm ((Bool.and_eq_true _ _).mp hand)
    rw [if_pos h0]
    rfl

/-- A one-column numeric table whose single column name matches no
vocabulary, exercising both detection fallbacks. -/
def wT2 : Table := ⟨["x"], [true], []⟩

theorem detect_columns_invariants_inst :
    ∃ s, detect_columns asciiUM wT2 = some s ∧
      s.name_columns ≠ [] ∧
      ((∀ c ∈ wT2.cols, ¬ nameKeys.any (fun k => containsKey k (normStr asciiUM c)) = true) →
        s.name_columns = wT2.cols.take 1) ∧
      (∀ c ∈ s.price_columns, isNumericCol wT2 c = true) ∧
      ((∀ c ∈ wT2.cols, ¬ (priceKeys.any (fun k => containsKey k (normStr asciiUM c)) = true ∧
          isNumericCol wT2 c = true)) →
        s.price_columns = wT2.cols.filter (isNumericCol wT2)) :=
  detect_columns_invariants asciiUM wT2 (by decide)

/-- C10: every one of the five role lists of a detected schema enumerates
its columns in the table's column order (it is a sublist of the column
list), so the downstream "first column" choices (the brand column used in
the label and the first-non-empty extraction for store, brand and id)
follow table column order, not keyword order. -/
theorem detect_columns_column_order (U : UnicodeModel) (t : Table) (s : ColumnSchema)
    (h : detect_columns U t = some s) :
    s.name_columns.Sublist t.cols ∧ s.brand_columns.Sublist t.cols ∧
    s.store_columns.Sublist t.cols ∧ s.price_columns.Sublist t.cols ∧
    s.id_columns.Sublist t.cols := by
  have hchar := detectAux_char U t.cols t.kinds s h
  have hpick : ∀ keys, (pickCols U keys t.cols).Sublist t.cols :=
    fun keys => List.filter_sublist _
  refine ⟨?_, hchar.2.1 ▸ hpick _, hchar.2.2.1 ▸ hpick _, ?_, hchar.2.2.2.2 ▸ hpick _⟩
  · rw [hchar.1]
    split
    · exact List.take_sublist _ _
    · exact hpick _
  · rw [hchar.2.2.2.1]
    split
    · exact List.filter_sublist _
    · exact List.filter_sublist _

/-- The schema detect_columns infers for wT1. -/
def wS1 : ColumnSchema := ⟨["Termek"], [], [], [], []⟩

theorem detect_columns_column_order_inst :
    wS1.name_columns.Sublist wT1.cols ∧ wS1.brand_columns.Sublist wT1.cols ∧
    wS1.store_columns.Sublist wT1.cols ∧ wS1.price_columns.Sublist wT1.cols ∧
    wS1.id_columns.Sublist wT1.cols :=
  detect_columns_column_order asciiUM wT1 wS1 (by decide)

theorem dropWhile_idem {α : Type} (p : α → Bool) (l : List α) :
    (l.dropWhile p).dropWhile p = l.dropWhile p := by
  induction l with
  | nil => rfl
  | cons a l ih =>
    by_cases h : p a = true
    · simp [List.dropWhile_cons, h, ih]
    · simp [List.dropWhile_cons, h]

theorem dropWhile_eq_self_of_prefix {α : Type} {p : α → Bool} {d t : List α}
    (hd : d.dropWhile p = d) (ht : t.IsPrefix d) : t.dropWhile p = t := by
  cases t with
  | nil => rfl
  | cons a t2 =>
    rcases ht with ⟨u, hu⟩
    have hpa : p a = false := by
      by_contra hcon
      have hpa : p a = true := by
        cases h : p a
        · exact absurd h hcon
        · rfl
      rw [← hu] at hd
      rw [List.cons_append, List.dropWhile_cons, hpa] at hd
      have hlen := congrArg List.length hd
      have hle := (@List.dropWhile_sublist _ (t2 ++ u) p).length_le
      simp [List.length_append] at hlen hle
      omega
    simp [List.dropWhile_cons, hpa]

theorem trimL_front (sp : Char → Bool) (l : List Char) :
    (trimL sp l).dropWhile sp = trimL sp l := by
  have hd : (l.dropWhile sp).dropWhile sp = l.dropWhile sp := dropWhile_idem sp l
  have hsuf : ((l.dropWhile sp).reverse.dropWhile sp).IsSuffix (l.dropWhile sp).reverse :=
    List.dropWhile_suffix sp
  have hpre : (trimL sp l).IsPrefix (l.dropWhile sp) := by
    have := List.reverse_prefix.mpr hsuf
    rwa [List.reverse_reverse] at this
  exact dropWhile_eq_self_of_prefix hd hpre

theorem trimL_back (sp : Char → Bool) (l : List Char) :
    (trimL sp l).reverse.dropWhile sp = (trimL sp l).reverse := by
  unfold trimL
  rw [List.reverse_reverse]
  exact dropWhile_idem sp _

theorem trimL_idem (sp : Char → Bool) (l : List Char) :
    trimL sp (trimL sp l) = trimL sp l := by
  conv_lhs => rw [trimL, trimL_front sp l, trimL_back sp l]
  exact List.reverse_reverse _

theorem mem_trimL {sp : Char → Bool} {l : List Char} {c : Char} (h : c ∈ trimL sp l) :
    c ∈ l := by
  unfold trimL at h
  rw [List.mem_reverse] at h
  have h1 : c ∈ (l.dropWhile sp).reverse := (List.dropWhile_suffix sp).sublist.subset h
  rw [List.mem_reverse] at h1
  exact (List.dropWhile_sublist sp).subset h1

theorem flatMap_eq_self {α : Type} {f : α → List α} {l : List α}
    (h : ∀ a ∈ l, f a = [a]) : l.flatMap f = l := by
  induction l with
  | nil => rfl
  | cons a as ih =>
    rw [List.flatMap_cons, h a (List.mem_cons_self a as),
      ih (fun b hb => h b (List.mem_cons_of_mem a hb))]
    rfl

/-- C5: normalize_text is idempotent on strings, its output contains no
uppercase letters and no combining marks, and missing (None) or NaN input
yields the empty string.  The two hypotheses are the facts of the Unicode
character database the proof rests on: every character of a canonical
decomposition is itself decomposition-stable, and lowercasing a
decomposition-stable non-mark character yields decomposition-stable,
non-mark, lowercase-stable, non-uppercase characters. -/
theorem normalize_text_spec (U : UnicodeModel)
    (hNfd : ∀ c : Char, ∀ d ∈ U.nfdChar c, U.nfdChar d = [d])
    (hLow : ∀ c : Char, U.nfdChar c = [c] → U.isMn c = false →
      ∀ d ∈ U.lowerChar c, U.nfdChar d = [d] ∧ U.isMn d = false ∧
        U.lowerChar d = [d] ∧ U.isUpper d = false) :
    (∀ s : String, normStr U (normStr U s) = normStr U s) ∧
    (∀ v : Value, ∀ c ∈ (normalize_text U v).data, U.isUpper c = false ∧ U.isMn c = false) ∧
    normalize_text U Value.vNan = "" ∧ normalize_text U Value.vNone = "" := by
  have hstrip : ∀ (l : List Char), ∀ c ∈ stripAccentsL U l,
      U.nfdChar c = [c] ∧ U.isMn c = false := by
    intro l c hc
    unfold stripAccentsL at hc
    rcases List.mem_filter.mp hc with ⟨hmem, hmn⟩
    rcases List.mem_flatMap.mp hmem with ⟨c0, _, hc0⟩
    exact ⟨hNfd c0 c hc0, by simpa using hmn⟩
  have hlower : ∀ (l : List Char), ∀ c ∈ lowerL U (stripAccentsL U l),
      U.nfdChar c = [c] ∧ U.isMn c = false ∧ U.lowerChar c = [c] ∧ U.isUpper c = false := by
    intro l c hc
    unfold lowerL at hc
    rcases List.mem_flatMap.mp hc with ⟨c1, hc1, hcc⟩
    rcases hstrip l c1 hc1 with ⟨h1, h2⟩
    exact hLow c1 h1 h2 c hcc
  have hchars : ∀ (l : List Char), ∀ c ∈ trimL U.isSpace (lowerL U (stripAccentsL U l)),
      U.nfdChar c = [c] ∧ U.isMn c = false ∧ U.lowerChar c = [c] ∧ U.isUpper c = false := by
    intro l c hc
    exact hlower l c (mem_trimL hc)
  refine ⟨?_, ?_, rfl, rfl⟩
  · intro s
    have hsm : ∀ m : List Char, (∀ c ∈ m, U.nfdChar c = [c] ∧ U.isMn c = false) →
        stripAccentsL U m = m := by
      intro m hm
      unfold stripAccentsL
      rw [flatMap_eq_self (fun c hc => (hm c hc).1)]
      exact List.filter_eq_self.mpr (fun c hc => by simp [(hm c hc).2])
    have hlm : ∀ m : List Char, (∀ c ∈ m, U.lowerChar c = [c]) → lowerL U m = m :=
      fun m hm => flatMap_eq_self hm
    have key : trimL U.isSpace (lowerL U (stripAccentsL U
        (trimL U.isSpace (lowerL U (stripAccentsL U s.data))))) =
        trimL U.isSpace (lowerL U (stripAccentsL U s.data)) := by
      rw [hsm _ (fun c hc => ⟨(hchars s.data c hc).1, (hchars s.data c hc).2.1⟩),
        hlm _ (fun c hc => (hchars s.data c hc).2.2.1)]
      exact trimL_idem _ _
    exact congrArg String.mk key
  · intro v c hc
    cases v with
    | vNone => simp [normalize_text] at hc
    | vNan => simp [normalize_text] at hc
    | vStr s =>
      simp only [normalize_text, Value.toStr, normStr] at hc
      rcases hchars s.data c hc with ⟨_, h2, _, h4⟩
      exact ⟨h4, h2⟩
    | vNum n =>
      simp only [normalize_text, Value.toStr, normStr] at hc
      rcases hchars (toString n).data c hc with ⟨_, h2, _, h4⟩
      exact ⟨h4, h2⟩

theorem normalize_text_spec_inst :
    normStr idUM (normStr idUM "  A  ") = normStr idUM "  A  " ∧
    normalize_text idUM Value.vNan = "" := by
  have h := normalize_text_spec idUM
    (by
      intro c d hd
      have hdc : d = c := by simpa [idUM] using hd
      subst hdc
      rfl)
    (by
      intro c _ _ d hd
      have hdc : d = c := by simpa [idUM] using hd
      subst hdc
      exact ⟨rfl, rfl, rfl, rfl⟩)
  exact ⟨h.1 "  A  ", h.2.2.1⟩

theorem setColumn_absent (t : Table) (c : String) (vs : List Value)
    (h : colIdx c t.cols = none) :
    setColumn t c vs =
      Table.mk (t.cols ++ [c]) (t.kinds ++ [false])
        ((t.rows.zip vs).map (fun p => p.1 ++ [p.2])) := by
  unfold setColumn
  rw [h]

theorem setColumn_present (t : Table) (c : String) (vs : List Value) (i : Nat)
    (h : colIdx c t.cols = some i) :
    setColumn t c vs =
      Table.mk t.cols t.kinds ((t.rows.zip vs).map (fun p => p.1.set i p.2)) := by
  unfold setColumn
  rw [h]

/-- The label of one row as it ends up in the __label column: the
name-column values converted to text and joined with " | ", with the
textual value of the first brand column appended wrapped as " (value)"
whenever brand_columns is non-empty. -/
def labelFull (cols : List String) (row : List Value) (s : ColumnSchema) : String :=
  match s.brand_columns with
  | [] => labelJoin cols row s.name_columns
  | b :: _ => labelJoin cols row s.name_columns ++ " (" ++ (rowGet cols row b).toStr ++ ")"

theorem labelJoin_append (t : Table) (s : ColumnSchema)
    (hname : ∀ c ∈ s.name_columns, c ∈ t.cols)
    {r : List Value} (hr : r.length = t.cols.length) (re : List Value) (ex : List String) :
    labelJoin (t.cols ++ ex) (r ++ re) s.name_columns = labelJoin t.cols r s.name_columns := by
  unfold labelJoin
  congr 1
  exact List.map_congr_left (fun c hc => by rw [rowGet_append (hname c hc) hr])


theorem prepare_step1_eq (U : UnicodeModel) (t : Table) (s : ColumnSchema)
    (hst : "__search_text" ∉ t.cols) :
    prepare_step1 U t s =
      Table.mk (t.cols ++ ["__search_text"]) (t.kinds ++ [false])
        (t.rows.map (fun r => r ++ [Value.vStr (build_search_text U t.cols r s)])) := by
  unfold prepare_step1
  rw [setColumn_absent _ _ _ ((colIdx_eq_none_iff _ _).mpr hst), zip_map_append]

theorem prepare_step2_eq (U : UnicodeModel) (t : Table) (s : ColumnSchema)
    (hst : "__search_text" ∉ t.cols) (hlb : "__label" ∉ t.cols)
    (hname : ∀ c ∈ s.name_columns, c ∈ t.cols)
    (hrows : ∀ r ∈ t.rows, r.length = t.cols.length) :
    prepare_step2 U t s =
      Table.mk (t.cols ++ ["__search_text", "__label"]) (t.kinds ++ [false, false])
        (t.rows.map (fun r => r ++ [Value.vStr (build_search_text U t.cols r s),
          Value.vStr (labelJoin t.cols r s.name_columns)])) := by
  have hlb1 : "__label" ∉ t.cols ++ ["__search_text"] := by
    intro hmem
    rcases List.mem_append.mp hmem with h | h
    · exact hlb h
    · simp at h
  unfold prepare_step2
  rw [prepare_step1_eq U t s hst]
  dsimp only
  rw [setColumn_absent _ _ _ ((colIdx_eq_none_iff _ _).mpr hlb1), zip_map_append,
    List.map_map]
  simp only [List.append_assoc, List.cons_append, List.nil_append]
  refine congrArg _ ?_
  refine List.map_congr_left (fun r hr => ?_)
  simp only [Function.comp]
  rw [labelJoin_append t s hname (hrows r hr)]
  simp

/-- Structural characterization of prepare_index_core on a well-formed
table that does not already carry the derived columns: the result appends
the two derived (non-numeric) columns at the end and extends every row by
its search text and its full label, leaving the original cells in place. -/
theorem prepare_index_core_eq (U : UnicodeModel) (t : Table) (s : ColumnSchema)
    (hst : "__search_text" ∉ t.cols) (hlb : "__label" ∉ t.cols)
    (hname : ∀ c ∈ s.name_columns, c ∈ t.cols)
    (hbrand : ∀ c ∈ s.brand_columns, c ∈ t.cols)
    (hrows : ∀ r ∈ t.rows, r.length = t.cols.length) :
    prepare_index_core U t s =
      Table.mk (t.cols ++ ["__search_text", "__label"]) (t.kinds ++ [false, false])
        (t.rows.map (fun r => r ++ [Value.vStr (build_search_text U t.cols r s),
          Value.vStr (labelFull t.cols r s)])) := by
  cases hbr : s.brand_columns with
  | nil =>
    unfold prepare_index_core
    rw [hbr]
    dsimp only
    rw [prepare_step2_eq U t s hst hlb hname hrows]
    refine congrArg _ ?_
    refine List.map_congr_left (fun r hr => ?_)
    have hlf : labelFull t.cols r s = labelJoin t.cols r s.name_columns := by
      unfold labelFull
      rw [hbr]
    rw [hlf]
  | cons b bs =>
    have hbmem : b ∈ t.cols := hbrand b (by rw [hbr]; exact List.mem_cons_self b bs)
    unfold prepare_index_core
    rw [hbr]
    dsimp only
    rw [prepare_step2_eq U t s hst hlb hname hrows]
    dsimp only
    have hidx3 : colIdx "__label" (t.cols ++ ["__search_text", "__label"]) =
        some (t.cols.length + 1) := by
      rw [colIdx_append_of_not_mem _ hlb]
      have h1 : colIdx "__label" ["__search_text", "__label"] = some 1 := by decide
      rw [h1]
      simp [Nat.add_comm]
    rw [setColumn_present _ _ _ _ hidx3, zip_map_set, List.map_map]
    refine congrArg _ ?_
    refine List.map_congr_left (fun r hr => ?_)
    simp only [Function.comp]
    have hrlen : r.length = t.cols.length := hrows r hr
    have hget_lbl : rowGet (t.cols ++ ["__search_text", "__label"])
        (r ++ [Value.vStr (build_search_text U t.cols r s),
          Value.vStr (labelJoin t.cols r s.name_columns)]) "__label" =
        Value.vStr (labelJoin t.cols r s.name_columns) := by
      unfold rowGet
      rw [hidx3]
      dsimp only
      have h0 : t.cols.length + 1 = r.length + 1 := by rw [hrlen]
      rw [h0, getD_append_len]
      rfl
    have hget_b : rowGet (t.cols ++ ["__search_text", "__label"])
        (r ++ [Value.vStr (build_search_text U t.cols r s),
          Value.vStr (labelJoin t.cols r s.name_columns)]) b =
        rowGet t.cols r b :=
      rowGet_append hbmem hrlen
    rw [hget_lbl, hget_b]
    have h0 : t.cols.length + 1 = r.length + 1 := by rw [hrlen]
    rw [h0, set_append_right]
    have hlf : labelFull t.cols r s =
        labelJoin t.cols r s.name_columns ++ " (" ++ (rowGet t.cols r b).toStr ++ ")" := by
      unfold labelFull
      rw [hbr]
    rw [hlf]
    rfl

theorem colIdx_label_appended {cols : List String} (hlb : "__label" ∉ cols) :
    colIdx "__label" (cols ++ ["__search_text", "__label"]) = some (cols.length + 1) := by
  rw [colIdx_append_of_not_mem _ hlb]
  have h1 : colIdx "__label" ["__search_text", "__label"] = some 1 := by decide
  rw [h1]
  simp [Nat.add_comm]

theorem rowGet_label_appended {cols : List String} {r : List Value}
    (hlb : "__label" ∉ cols) (hrlen : r.length = cols.length) (a l : Value) :
    rowGet (cols ++ ["__search_text", "__label"]) (r ++ [a, l]) "__label" = l := by
  unfold rowGet
  rw [colIdx_label_appended hlb]
  dsimp only
  have h0 : cols.length + 1 = r.length + 1 := by rw [hrlen]
  rw [h0, getD_append_len]
  rfl

theorem getD_map_rows {l : List (List Value)} {i : Nat} (f : List Value → List Value)
    (hi : i < l.length) : (l.map f).getD i [] = f (l.getD i []) := by
  rw [List.getD_eq_getElem?_getD, List.getElem?_map, List.getD_eq_getElem?_getD,
    List.getElem?_eq_getElem hi]
  rfl

/-- C6: the __label value prepare_index stores for every row equals the
row's name-column values converted to text and joined with " | ", with
the textual value of the first brand column appended wrapped as
" (value)" whenever brand_columns is non-empty (labelFull spells out that
formula, with no emptiness test on the brand value); building the index
never fails apart from the zero-column InvalidTable case with no schema
given; and missing (None) or NaN values are rendered as empty strings by
the normalizer feeding the search text. -/
theorem prepare_index_label (U : UnicodeModel) (t : Table) (s : ColumnSchema)
    (hst : "__search_text" ∉ t.cols) (hlb : "__label" ∉ t.cols)
    (hname : ∀ c ∈ s.name_columns, c ∈ t.cols)
    (hbrand : ∀ c ∈ s.brand_columns, c ∈ t.cols)
    (hrows : ∀ r ∈ t.rows, r.length = t.cols.length) :
    (∀ os : Option ColumnSchema, (os = none → t.cols ≠ []) →
      (prepare_index U t os).isSome = true) ∧
    (∀ i, i < t.rows.length →
      rowGet (prepare_index_core U t s).cols ((prepare_index_core U t s).rows.getD i [])
        "__label" = Value.vStr (labelFull t.cols (t.rows.getD i []) s)) ∧
    normalize_text U Value.vNan = "" ∧ normalize_text U Value.vNone = "" := by
  refine ⟨?_, ?_, rfl, rfl⟩
  · intro os hos
    cases os with
    | some s2 => simp [prepare_index]
    | none =>
      have hsome := detectAux_isSome U t.cols t.kinds (hos rfl)
      rcases Option.isSome_iff_exists.mp hsome with ⟨s2, hs2⟩
      simp [prepare_index, detect_columns, hs2]
  · intro i hi
    rw [prepare_index_core_eq U t s hst hlb hname hbrand hrows]
    dsimp only
    rw [getD_map_rows _ hi]
    have hrlen : (t.rows.getD i []).length = t.cols.length := by
      refine hrows _ ?_
      rw [List.getD_eq_getElem?_getD, List.getElem?_eq_getElem hi]
      exact List.getElem_mem _
    exact rowGet_label_appended hlb hrlen _ _

/-- A concrete table with a name column and a brand column (the brand
column name also contains the price keyword "ar", exercising the numeric
filter of price detection). -/
def wT3 : Table :=
  ⟨["Termek", "Marka"], [false, false], [[Value.vStr "Alma", Value.vStr "X"]]⟩

/-- The schema detect_columns infers for wT3. -/
def wS3 : ColumnSchema := ⟨["Termek"], ["Marka"], [], [], []⟩

example : detect_columns asciiUM wT3 = some wS3 := by decide

theorem prepare_index_label_inst :
    (∀ os : Option ColumnSchema, (os = none → wT3.cols ≠ []) →
      (prepare_index asciiUM wT3 os).isSome = true) ∧
    (∀ i, i < wT3.rows.length →
      rowGet (prepare_index_core asciiUM wT3 wS3).cols
        ((prepare_index_core asciiUM wT3 wS3).rows.getD i [])
        "__label" = Value.vStr (labelFull wT3.cols (wT3.rows.getD i []) wS3)) ∧
    normalize_text asciiUM Value.vNan = "" ∧ normalize_text asciiUM Value.vNone = "" :=
  prepare_index_label asciiUM wT3 wS3 (by decide) (by decide) (by decide) (by decide)
    (by decide)

/-- C2 counterexample: on a concrete one-column table, search_products
returns MatchResults whose source_row still contains the two derived
fields __search_text and __label alongside the original column, so the
claim that the MatchResult's source_row holds exactly the original values
with the derived fields removed fails on the code of search.py (the
removal happens only in the server layer's _compact_row). -/
theorem search_source_row_cex :
    search_products asciiUM wT1 "alma" 5 0 none = some wRes1 ∧
    wRes1.map (fun r => r.source_row.map Prod.fst) =
      [["Termek", "__search_text", "__label"], ["Termek", "__search_text", "__label"]] := by
  decide

theorem mkResult_source_row (U : UnicodeModel) (t : Table) (s : ColumnSchema) (e : Scored) :
    (mkResult U t s e).source_row = t.cols.zip (t.rows.getD e.idx []) := rfl

/-- C2 (amended): for every row returned by search_products, source_row
holds the indexed row's values, which are the original column values
followed by the two derived fields; applying the server layer's
_compact_row (server.py lines 71-73) removes exactly the
double-underscore keys and recovers precisely the row's original column
values, provided no original column name starts with a double
underscore. -/
theorem search_products_source_row (U : UnicodeModel) (t : Table) (q : String)
    (limit : Nat) (ms : Rat) (os : Option ColumnSchema) (res : List MatchResult)
    (hus : ∀ c ∈ t.cols, ¬ ("__".data <+: c.data))
    (hcols : os = none → t.cols ≠ [])
    (hsch : ∀ s, os = some s → (∀ c ∈ s.name_columns, c ∈ t.cols) ∧
      (∀ c ∈ s.brand_columns, c ∈ t.cols))
    (hrows : ∀ r ∈ t.rows, r.length = t.cols.length)
    (hres : search_products U t q limit ms os = some res) :
    ∃ s0, resolve_index U t os = some (prepare_index_core U t s0, s0) ∧
      ∀ r ∈ res, ∃ i, i < t.rows.length ∧
        r.source_row = (t.cols.zip (t.rows.getD i [])) ++
          [("__search_text", Value.vStr (build_search_text U t.cols (t.rows.getD i []) s0)),
            ("__label", Value.vStr (labelFull t.cols (t.rows.getD i []) s0))] ∧
        compact_row r.source_row = t.cols.zip (t.rows.getD i []) := by
  have hst : "__search_text" ∉ t.cols := fun hmem => hus _ hmem (by decide)
  have hlb : "__label" ∉ t.cols := fun hmem => hus _ hmem (by decide)
  have hresolve : ∃ s0, resolve_index U t os = some (prepare_index_core U t s0, s0) ∧
      (∀ c ∈ s0.name_columns, c ∈ t.cols) ∧ (∀ c ∈ s0.brand_columns, c ∈ t.cols) := by
    cases os with
    | some s =>
      refine ⟨s, ?_, (hsch s rfl).1, (hsch s rfl).2⟩
      unfold resolve_index
      rw [if_neg hst]
    | none =>
      have hsome := detectAux_isSome U t.cols t.kinds (hcols rfl)
      rcases Option.isSome_iff_exists.mp hsome with ⟨s2, hs2⟩
      have horder := detect_columns_column_order U t s2 hs2
      refine ⟨s2, ?_, fun c hc => horder.1.subset hc, fun c hc => horder.2.1.subset hc⟩
      unfold resolve_index
      rw [if_neg hst]
      simp [detect_columns, hs2]
  rcases hresolve with ⟨s0, hrsv, hname, hbrand⟩
  refine ⟨s0, hrsv, ?_⟩
  have hcore := prepare_index_core_eq U t s0 hst hlb hname hbrand hrows
  rcases Option.map_eq_some'.mp (by rw [search_products, hrsv] at hres; exact hres) with
    ⟨ts, hts, hfn⟩
  have hts2 : ts = (prepare_index_core U t s0, s0) := (Option.some.inj hts).symm
  subst hts2
  intro r hr
  rw [← hfn] at hr
  rcases List.mem_filterMap.mp hr with ⟨e, he, hfe⟩
  have hidx : e.idx < t.rows.length := by
    have h1 := extract_mem_idx_lt he
    have h2 : ((colValues (prepare_index_core U t s0) "__search_text").map Value.toStr).length =
        t.rows.length := by
      rw [hcore]
      simp [colValues]
    rw [h2] at h1
    exact h1
  have hrmk : r = mkResult U (prepare_index_core U t s0) s0 e := by
    by_cases h : e.score < ms
    · rw [if_pos h] at hfe
      exact absurd hfe (by simp)
    · rw [if_neg h] at hfe
      exact (Option.some.inj hfe).symm
  refine ⟨e.idx, hidx, ?_, ?_⟩
  · rw [hrmk, mkResult_source_row, hcore]
    dsimp only
    rw [getD_map_rows _ hidx]
    have hrlen : (t.rows.getD e.idx []).length = t.cols.length := by
      refine hrows _ ?_
      rw [List.getD_eq_getElem?_getD, List.getElem?_eq_getElem hidx]
      exact List.getElem_mem _
    rw [List.zip_append hrlen.symm]
    rfl
  · rw [hrmk, mkResult_source_row, hcore]
    dsimp only
    rw [getD_map_rows _ hidx]
    have hrlen : (t.rows.getD e.idx []).length = t.cols.length := by
      refine hrows _ ?_
      rw [List.getD_eq_getElem?_getD, List.getElem?_eq_getElem hidx]
      exact List.getElem_mem _
    rw [List.zip_append hrlen.symm]
    unfold compact_row
    rw [List.filter_append]
    have hA : (t.cols.zip (t.rows.getD e.idx [])).filter
        (fun p => !decide ("__".data <+: p.1.data)) = t.cols.zip (t.rows.getD e.idx []) := by
      rw [List.filter_eq_self]
      intro p hp
      have hpc : p.1 ∈ t.cols := (List.of_mem_zip hp).1
      simp [hus p.1 hpc]
    have hk1 : (!decide ("__".data <+: "__search_text".data)) = false := by decide
    have hk2 : (!decide ("__".data <+: "__label".data)) = false := by decide
    rw [hA]
    have hB : (["__search_text", "__label"].zip
        [Value.vStr (build_search_text U t.cols (t.rows.getD e.idx []) s0),
          Value.vStr (labelFull t.cols (t.rows.getD e.idx []) s0)]).filter
        (fun p => !decide ("__".data <+: p.1.data)) = [] := by
      simp [List.zip, List.zipWith, List.filter, hk1, hk2]
    rw [hB, List.append_nil]

theorem search_products_source_row_inst :
    ∃ s0, resolve_index asciiUM wT1 none = some (prepare_index_core asciiUM wT1 s0, s0) ∧
      ∀ r ∈ wRes1, ∃ i, i < wT1.rows.length ∧
        r.source_row = (wT1.cols.zip (wT1.rows.getD i [])) ++
          [("__search_text",
              Value.vStr (build_search_text asciiUM wT1.cols (wT1.rows.getD i []) s0)),
            ("__label", Value.vStr (labelFull wT1.cols (wT1.rows.getD i []) s0))] ∧
        compact_row r.source_row = wT1.cols.zip (wT1.rows.getD i []) :=
  search_products_source_row asciiUM wT1 "alma" 5 0 none wRes1
    (by decide) (fun _ => by decide) (fun s h => nomatch h) (by decide) (by decide)

theorem readRef_append {σ : List Table} {r : Nat} (t : Table) (h : r < σ.length) :
    readRef (σ ++ [t]) r = readRef σ r := by
  unfold readRef
  rw [List.getD_eq_getElem?_getD, List.getD_eq_getElem?_getD, List.getElem?_append_left h]

theorem readRef_write_ne (σ : List Table) (i j : Nat) (t : Table) (h : j ≠ i) :
    readRef (writeRef σ i t) j = readRef σ j := by
  unfold readRef writeRef
  rw [List.getD_eq_getElem?_getD, List.getD_eq_getElem?_getD, List.getElem?_set_ne]
  exact fun he => h he.symm

theorem prepare_index_obj_frame (U : UnicodeModel) (σ : List Table) (df : Nat)
    (os : Option ColumnSchema) (hdf : df < σ.length) :
    ∀ out ∈ prepare_index_obj U σ df os, readRef out.1 df = readRef σ df := by
  intro out hout
  unfold prepare_index_obj at hout
  rcases hos : (match os with
      | some s => some s
      | none => detect_columns U (readRef σ df)) with _ | s
  · rw [hos] at hout
    exact absurd hout (by simp)
  · rw [hos] at hout
    dsimp only at hout
    have hne : df ≠ σ.length := Nat.ne_of_lt hdf
    cases hbr : s.brand_columns with
    | nil =>
      rw [hbr] at hout
      dsimp only at hout
      rw [Option.mem_def] at hout
      obtain rfl := (Option.some.inj hout).symm
      dsimp only
      rw [readRef_write_ne _ _ _ _ hne, readRef_write_ne _ _ _ _ hne, readRef_append _ hdf]
    | cons b bs =>
      rw [hbr] at hout
      dsimp only at hout
      rw [Option.mem_def] at hout
      obtain rfl := (Option.some.inj hout).symm
      dsimp only
      rw [readRef_write_ne _ _ _ _ hne, readRef_write_ne _ _ _ _ hne,
        readRef_write_ne _ _ _ _ hne, readRef_append _ hdf]

/-- C8: neither prepare_index nor search_products mutates the
caller-supplied table object: in the object-store embedding, where every
Python-level column assignment targets the reference held by the local
variable, the store entry the caller's reference points to is
value-identical before and after either call; derived fields are written
only to the copy allocated by df.copy(). -/
theorem no_mutation_of_caller_table (U : UnicodeModel) (σ : List Table) (df : Nat)
    (q : String) (limit : Nat) (ms : Rat) (os : Option ColumnSchema)
    (hdf : df < σ.length) :
    (∀ out ∈ prepare_index_obj U σ df os, readRef out.1 df = readRef σ df) ∧
    (∀ out ∈ search_products_obj U σ df q limit ms os, readRef out.1 df = readRef σ df) := by
  refine ⟨prepare_index_obj_frame U σ df os hdf, ?_⟩
  intro out hout
  unfold search_products_obj at hout
  by_cases hmem : "__search_text" ∈ (readRef σ df).cols
  · rw [if_pos hmem] at hout
    rcases hos : (match os with
        | some s => some s
        | none => detect_columns U (readRef σ df)) with _ | s
    · rw [hos] at hout
      exact absurd hout (by simp)
    · rw [hos] at hout
      dsimp only at hout
      rw [Option.mem_def] at hout
      obtain rfl := (Option.some.inj hout).symm
      rfl
  · rw [if_neg hmem] at hout
    rcases hos : (match os with
        | some s => some s
        | none => detect_columns U (readRef σ df)) with _ | s
    · rw [hos] at hout
      exact absurd hout (by simp)
    · rw [hos] at hout
      dsimp only at hout
      rcases hpre : prepare_index_obj U σ df (some s) with _ | p
      · rw [hpre] at hout
        exact absurd hout (by simp)
      · rw [hpre] at hout
        rw [Option.mem_def] at hout
        obtain rfl := (Option.some.inj hout).symm
        dsimp only
        exact prepare_index_obj_frame U σ df (some s) hdf p (by rw [hpre]; rfl)

theorem no_mutation_of_caller_table_inst :
    (∀ out ∈ prepare_index_obj asciiUM [wT1] 0 none,
      readRef out.1 0 = readRef [wT1] 0) ∧
    (∀ out ∈ search_products_obj asciiUM [wT1] 0 "alma" 5 0 none,
      readRef out.1 0 = readRef [wT1] 0) :=
  no_mutation_of_caller_table asciiUM [wT1] 0 "alma" 5 0 none (by decide)
